import Mathlib

/-!
Verification of the `parched` package-metadata parsers (`parched.py`).

The file shallowly embeds the two parsers of the repository:

* `PacmanPackage._parse` — the flat `.PKGINFO` reader (line loop plus the
  post-processing coercions), modelled by `processLines` and `pacmanPost`;
* `PKGBUILD` — the shell-subset recipe parser: the token loop
  (`parseTokens`), the symbol-substitution engine (`substFuel`,
  `substituteAllF`), and the symbol-to-record mapper (`assignLocal`).

Python values that can live in a record attribute are modelled by `PV`;
Python strings are modelled by `String`/`List Char`, machine integers by
`Int` (Python integers are unbounded, so no modular arithmetic is needed),
and fallible code returns `Except String`.
-/

namespace Parched

/-- A Python value held in a record attribute or in the symbol table:
a string, a list of strings, an `int`, a `bool`, `None`, or a
`datetime` (kept as the Unix timestamp it was built from). -/
inductive PV where
  | str (s : String)
  | arr (xs : List String)
  | int (i : Int)
  | bool (b : Bool)
  | none
  | dt (i : Int)
deriving DecidableEq, Repr

/-- Truthiness of a `PV`, as Python's `if value:` sees it. -/
def pvTruthy : PV → Bool
  | .str s => s ≠ ""
  | .arr xs => xs ≠ []
  | .int i => i ≠ 0
  | .bool b => b
  | .none => false
  | .dt _ => true

/-- Python `value == False` on a `PV` (`0 == False` is true, everything
else that is not the boolean `False` compares unequal). -/
def pvEqFalse : PV → Bool
  | .bool b => !b
  | .int i => i == 0
  | _ => false

/-- Python `value == s` for a string literal `s`: only a string equal to
`s` compares equal; lists, ints, bools and `None` compare unequal. -/
def pvEqStr (v : PV) (s : String) : Bool :=
  match v with
  | .str t => t == s
  | _ => false

/-! ### Character-level string helpers (Python string methods) -/

/-- Python's default `str.strip()` whitespace set (ASCII). -/
def isPySpace (c : Char) : Bool :=
  c = ' ' ∨ c = '\t' ∨ c = '\n' ∨ c = '\r' ∨ c = '\x0b' ∨ c = '\x0c'

/-- Drop characters satisfying `p` from both ends of a character list. -/
def trimBy (p : Char → Bool) (cs : List Char) : List Char :=
  ((cs.dropWhile p).reverse.dropWhile p).reverse

/-- Python `str.strip()` (default whitespace). -/
def pyStrip (s : String) : String := ⟨trimBy isPySpace s.data⟩

/-- Python `str.strip(chars)`: drop any of the given characters from
both ends. -/
def pyStripChars (set : List Char) (s : String) : String :=
  ⟨trimBy (fun c => set.contains c) s.data⟩

/-- Does `needle` occur as a contiguous infix of `hay`?  Models Python
`hay.find(needle) >= 0`. -/
def hasInfixB (needle : List Char) : List Char → Bool
  | [] => needle.isEmpty
  | c :: t => needle.isPrefixOf (c :: t) || hasInfixB needle t

/-- Replace the first occurrence of `pat` by `rep`; Python
`s.replace(pat, rep, 1)` for a non-empty `pat`. -/
def replaceFirstL (pat rep : List Char) : List Char → List Char
  | [] => []
  | c :: t =>
    if pat.isPrefixOf (c :: t) then rep ++ (c :: t).drop pat.length
    else c :: replaceFirstL pat rep t

/-- Python `s.partition(sep)`: split on the first occurrence of `sep`,
returning `(before, sep-or-empty, after)`. -/
def ppartitionL (sep : List Char) (cs : List Char) : List Char × List Char × List Char :=
  match ((List.range (cs.length + 1)).filter fun k => sep.isPrefixOf (cs.drop k)).head? with
  | some k => (cs.take k, sep, cs.drop (k + sep.length))
  | none => (cs, [], [])

/-- Python `s.rpartition(sep)`: split on the last occurrence of `sep`,
returning `(before, sep, after)`; if `sep` does not occur the result is
`("", "", s)`. -/
def rpartitionL (sep : List Char) (cs : List Char) : List Char × List Char × List Char :=
  match ((List.range (cs.length + 1)).filter fun k => sep.isPrefixOf (cs.drop k)).getLast? with
  | some k => (cs.take k, sep, cs.drop (k + sep.length))
  | none => ([], [], cs)

/-- `rpartition` lifted to `String`. -/
def rpartitionS (sep s : String) : String × String × String :=
  let (a, b, c) := rpartitionL sep.data s.data
  (⟨a⟩, ⟨b⟩, ⟨c⟩)

/-- `partition` lifted to `String`. -/
def ppartitionS (sep s : String) : String × String × String :=
  let (a, b, c) := ppartitionL sep.data s.data
  (⟨a⟩, ⟨b⟩, ⟨c⟩)

theorem string_mk_data (s : String) : String.mk s.data = s := rfl

/-- First-match association-list lookup (Python `dict[k]` access wrapped
in `try`, and `k in dict` membership). -/
def alookup {β : Type} (k : String) : List (String × β) → Option β
  | [] => Option.none
  | (k', v) :: t => if k' = k then some v else alookup k t

/-! ### The flat `.PKGINFO` reader (`PacmanPackage._parse`) -/

/-- The attribute store of a `PacmanPackage` object: Python object
attributes (created and overwritten by `setattr`), modelled as a
function from attribute name to value. -/
def PState := String → Option PV

/-- `setattr self k v`. -/
def setA (st : PState) (k : String) (v : PV) : PState :=
  fun g => if g = k then some v else st g

/-- `PacmanPackage._symbol_map`. -/
def symbolMapP : List (String × String) :=
  [("pkgname", "name"), ("pkgver", "version"), ("pkgdesc", "description"),
   ("license", "licenses"), ("arch", "architectures"), ("force", "is_forced"),
   ("conflict", "conflicts"), ("group", "groups"), ("optdepend", "optdepends"),
   ("makepkgopt", "options"), ("depend", "depends")]

/-- `PacmanPackage._arrays`. -/
def arraysP : List String :=
  ["arch", "license", "replaces", "group", "depend",
   "optdepend", "conflict", "provides", "backup", "makepkgopt"]

/-- `real_name = self._symbol_map[var] if var in self._symbol_map else var`. -/
def renameP (var : String) : String := (alookup var symbolMapP).getD var

/-- The attributes set by `Package.__init__` and `PacmanPackage.__init__`
before `_parse` runs (`files` is filled from the archive member list,
which is irrelevant to the line loop and kept at its `[]` default). -/
def pacmanDefaults : List (String × PV) :=
  [("name", .str ""), ("version", .str ""), ("release", .str ""),
   ("description", .str ""), ("url", .str ""), ("licenses", .arr []),
   ("groups", .arr []), ("provides", .arr []), ("depends", .arr []),
   ("optdepends", .arr []), ("conflicts", .arr []), ("replaces", .arr []),
   ("architectures", .arr []), ("options", .arr []), ("backup", .arr []),
   ("builddate", .str ""), ("packager", .str ""), ("is_forced", .str ""),
   ("size", .int 0), ("files", .arr [])]

/-- The object state on entry to `PacmanPackage._parse`. -/
def pacmanInitState : PState := fun k => alookup k pacmanDefaults

/-- One iteration of the `for line in pkginfo` loop of
`PacmanPackage._parse`: skip comments (first character `#`) and blank
lines, split the stripped line on the last `" = "`, rename the key
through `_symbol_map`, and either append (keys in `_arrays`) or
overwrite (`setattr`). -/
def processLine (st : PState) (line : String) : Except String PState :=
  if line = "" then .error "IndexError: string index out of range"
  else if line.data.headD ' ' = '#' ∨ pyStrip line = "" then .ok st
  else
    if (rpartitionS " = " (pyStrip line)).1 ∈ arraysP then
      match st (renameP (rpartitionS " = " (pyStrip line)).1) with
      | some (.arr xs) => .ok (setA st (renameP (rpartitionS " = " (pyStrip line)).1)
          (.arr (xs ++ [(rpartitionS " = " (pyStrip line)).2.2])))
      | some _ => .error "AttributeError: append on non-list"
      | Option.none => .error "AttributeError: missing attribute"
    else .ok (setA st (renameP (rpartitionS " = " (pyStrip line)).1)
        (.str (rpartitionS " = " (pyStrip line)).2.2))

/-- The whole line loop of `PacmanPackage._parse`. -/
def processLines (st : PState) (lines : List String) : Except String PState :=
  lines.foldlM processLine st

/-- `c.toNat - 48`: numeric value of a decimal digit character. -/
def digitVal (c : Char) : Nat := c.toNat - 48

/-- Value of a big-endian decimal digit string. -/
def natOfDigits (ds : List Char) : Nat := ds.foldl (fun a c => a * 10 + digitVal c) 0

/-- Core of Python `int(s)`: after whitespace stripping, an optional
sign followed by decimal digits; anything else raises `ValueError`. -/
def pyIntCore : List Char → Except String Int
  | [] => .error "ValueError: invalid literal for int()"
  | c :: ds =>
    if c = '-' then
      if ds ≠ [] ∧ ds.all Char.isDigit then .ok (-(natOfDigits ds : Int))
      else .error "ValueError: invalid literal for int()"
    else if c = '+' then
      if ds ≠ [] ∧ ds.all Char.isDigit then .ok (natOfDigits ds)
      else .error "ValueError: invalid literal for int()"
    else
      if (c :: ds).all Char.isDigit then .ok (natOfDigits (c :: ds))
      else .error "ValueError: invalid literal for int()"

/-- Python `int(s)` on a string: surrounding whitespace is ignored. -/
def pyInt (s : String) : Except String Int :=
  pyIntCore (trimBy isPySpace s.data)

/-- Python `int(v)` on an attribute value: strings are parsed, ints kept,
bools become 0/1, everything else raises `TypeError`. -/
def pyIntOfPV : PV → Except String Int
  | .str s => pyInt s
  | .int i => .ok i
  | .bool b => .ok (if b then 1 else 0)
  | _ => .error "TypeError: int() argument"

/-- Decimal digit character (only applied to values below ten). -/
def digitChar10 : Nat → Char
  | 0 => '0' | 1 => '1' | 2 => '2' | 3 => '3' | 4 => '4'
  | 5 => '5' | 6 => '6' | 7 => '7' | 8 => '8' | _ => '9'

/-- Fuelled big-endian decimal digits of a natural number. -/
def natDigits (fuel n : Nat) : List Char :=
  match fuel with
  | 0 => []
  | fuel + 1 =>
    if n < 10 then [digitChar10 n]
    else natDigits fuel (n / 10) ++ [digitChar10 (n % 10)]

/-- Python `str(n)` for a natural number. -/
def natRepr (n : Nat) : String := ⟨natDigits (n + 1) n⟩

/-- Python `str(i)` for an integer. -/
def intRepr (i : Int) : String :=
  if i < 0 then "-" ++ natRepr i.natAbs else natRepr i.toNat

/-- `if self.size: self.size = int(self.size)` (source line 251-252). -/
def postSize (st : PState) : Except String PState :=
  match st "size" with
  | some v =>
    if pvTruthy v then
      (pyIntOfPV v).bind fun i => .ok (setA st "size" (.int i))
    else .ok st
  | Option.none => .error "AttributeError: size"

/-- `if not self.is_forced == False: self.is_forced = self.is_forced == "True"`
(source line 253-254). -/
def postForced (st : PState) : Except String PState :=
  match st "is_forced" with
  | some v =>
    if !(pvEqFalse v) then .ok (setA st "is_forced" (.bool (pvEqStr v "True")))
    else .ok st
  | Option.none => .error "AttributeError: is_forced"

/-- `if self.builddate: self.builddate = datetime.utcfromtimestamp(int(self.builddate))`
(source line 255-256); the `datetime` is kept as its timestamp. -/
def postBuilddate (st : PState) : Except String PState :=
  match st "builddate" with
  | some v =>
    if pvTruthy v then
      (pyIntOfPV v).bind fun i => .ok (setA st "builddate" (.dt i))
    else .ok st
  | Option.none => .error "AttributeError: builddate"

/-- `if self.version: self.version, _, self.release = self.version.rpartition('-');
self.release = int(self.release)` (source lines 257-259): the tuple
assignment first stores both halves as strings, then `release` is
coerced with `int`. -/
def postVersion (st : PState) : Except String PState :=
  match st "version" with
  | some v =>
    if pvTruthy v then
      match v with
      | .str s =>
        (pyInt (rpartitionS "-" s).2.2).bind fun i =>
          .ok (setA (setA (setA st "version" (.str (rpartitionS "-" s).1))
                "release" (.str (rpartitionS "-" s).2.2)) "release" (.int i))
      | _ => .error "AttributeError: rpartition on non-string"
    else .ok st
  | Option.none => .error "AttributeError: version"

/-- `if self.packager == 'Uknown Packager': self.packager = None`
(source lines 260-261; the sentinel is misspelled exactly as in the source). -/
def postPackager (st : PState) : Except String PState :=
  match st "packager" with
  | some v =>
    if pvEqStr v "Uknown Packager" then .ok (setA st "packager" PV.none)
    else .ok st
  | Option.none => .error "AttributeError: packager"

/-- The post-processing of `PacmanPackage._parse` (source lines 251-261),
applied in source order. -/
def pacmanPost (st : PState) : Except String PState :=
  ((((postSize st).bind postForced).bind postBuilddate).bind postVersion).bind postPackager

/-- All of `PacmanPackage._parse`: the line loop followed by the
post-processing coercions. -/
def pacmanParse (lines : List String) : Except String PState := do
  let st ← processLines pacmanInitState lines
  pacmanPost st

/-- Observe one attribute of a completed parse (`none` if the parse
raised). -/
def parseField (lines : List String) (k : String) : Option (Option PV) :=
  (pacmanParse lines).toOption.map fun st => st k

example : parseField ["packager = Unknown Packager"] "packager"
    = some (some (.str "Unknown Packager")) := by decide

example : parseField ["packager = Uknown Packager"] "packager"
    = some (some PV.none) := by decide

example : parseField [] "is_forced" = some (some (.bool false)) := by decide

example : parseField ["force = True"] "is_forced" = some (some (.bool true)) := by decide

example : parseField ["pkgver = 1.0-1"] "version" = some (some (.str "1.0")) := by decide

example : parseField ["pkgver = 1.0-1"] "release" = some (some (.int 1)) := by decide

example : parseField ["license = A", "license = B"] "licenses"
    = some (some (.arr ["A", "B"])) := by decide

/-! ### The `PKGBUILD` parser: tokenizer loop and symbol table -/

/-- `shlex.whitespace`. -/
def shlexWS (c : Char) : Bool := c = ' ' ∨ c = '\t' ∨ c = '\r' ∨ c = '\n'

/-- `[a-zA-Z0-9_]`: the character class of `\w`/`\d` in the source's
regexes (ASCII, as in the Python-2-era source). -/
def isWordChar (c : Char) : Bool := c.isAlphanum || c = '_'

/-- Lexer state of `shlex` in posix mode: outside quotes, inside
single quotes, inside double quotes. -/
inductive SMode where
  | norm
  | single
  | double

/-- The posix `shlex` state machine with `whitespace_split = True`,
restricted to what `shlex.split` uses: whitespace-separated tokens,
single quotes (literal), double quotes (backslash escapes only `\` and
`"`), and backslash escapes outside quotes.  An unterminated quote or a
trailing escape raises. -/
def slex : List Char → SMode → Option (List Char) → List String → Except String (List String)
  | [], .norm, Option.none, acc => .ok acc
  | [], .norm, some cur, acc => .ok (acc ++ [String.mk cur])
  | [], .single, _, _ => .error "ValueError: No closing quotation"
  | [], .double, _, _ => .error "ValueError: No closing quotation"
  | c :: cs, .norm, cur, acc =>
    if shlexWS c then
      match cur with
      | Option.none => slex cs .norm Option.none acc
      | some t => slex cs .norm Option.none (acc ++ [String.mk t])
    else if c = '\'' then slex cs .single (some (cur.getD [])) acc
    else if c = '"' then slex cs .double (some (cur.getD [])) acc
    else if c = '\\' then
      match cs with
      | [] => .error "ValueError: No escaped character"
      | d :: cs' => slex cs' .norm (some (cur.getD [] ++ [d])) acc
    else slex cs .norm (some (cur.getD [] ++ [c])) acc
  | c :: cs, .single, cur, acc =>
    if c = '\'' then slex cs .norm (some (cur.getD [])) acc
    else slex cs .single (some (cur.getD [] ++ [c])) acc
  | c :: cs, .double, cur, acc =>
    if c = '"' then slex cs .norm (some (cur.getD [])) acc
    else if c = '\\' then
      match cs with
      | [] => .error "ValueError: No escaped character"
      | d :: cs' =>
        if d = '\\' ∨ d = '"' then slex cs' .double (some (cur.getD [] ++ [d])) acc
        else slex cs' .double (some (cur.getD [] ++ ['\\', d])) acc
    else slex cs .double (some (cur.getD [] ++ [c])) acc

/-- `shlex.split(s)` in posix mode with whitespace splitting. -/
def shlexSplit (s : String) : Except String (List String) :=
  slex s.data .norm Option.none []

deriving instance DecidableEq for Except

/-- The symbol table `PKGBUILD._symbols`: insertion-ordered mapping from
raw recipe variable name to its value (scalar string or array). -/
abbrev SymTable := List (String × PV)

/-- Python `dict` update: overwrite in place if the key exists
(keeping its position), else append. -/
def updateAssoc : List (String × PV) → String → PV → List (String × PV)
  | [], k, v => [(k, v)]
  | (k', v') :: t, k, v =>
    if k' = k then (k, v) :: t else (k', v') :: updateAssoc t k v

/-- `PKGBUILD._clean`: strip enclosing single quotes (all of them, as
`str.strip("'")` does) when the value both starts and ends with one. -/
def cleanB (value : String) : String :=
  match value.data with
  | [] => value
  | c :: _ =>
    if c = '\'' ∧ value.data.getLast? = some '\'' then pyStripChars ['\''] value
    else value

/-- `PKGBUILD._clean_array`: strip the parentheses and split on shell
quoting rules. -/
def cleanArray (value : String) : Except String (List String) :=
  shlexSplit (pyStripChars ['(', ')'] value)

/-- `PKGBUILD._handle_assign`: split the stripped token on the first
`=`; a value wrapped in parentheses becomes an array, anything else a
cleaned scalar.  (`value[0]` on an empty value raises, as in Python.) -/
def handleAssign (tbl : SymTable) (token : String) : Except String SymTable :=
  let t := pyStrip token
  let var := (ppartitionS "=" t).1
  let value := (ppartitionS "=" t).2.2
  match value.data with
  | [] => .error "IndexError: string index out of range"
  | c :: _ =>
    if c = '(' ∧ value.data.getLast? = some ')' then
      (cleanArray value).map fun es => updateAssoc tbl var (.arr es)
    else .ok (updateAssoc tbl var (.str (cleanB value)))

/-- `re.match(r"^[\w\d_]+=", token)`: a non-empty word-character prefix
immediately followed by `=`. -/
def matchesAssign (t : String) : Bool :=
  let w := t.data.takeWhile isWordChar
  (w ≠ [] : Bool) && ((t.data.drop w.length).headD ' ' = '=')

/-- The inner `while in_array` loop of `PKGBUILD._parse`: gather raw
tokens (skipping `'\n'`) until one ends in `)`, re-quoting each element,
and synthesize the single array-literal token exactly as the source
does.  Stream exhaustion inside the loop raises (Python indexes
`None[-1]`). -/
def joinArray : String → List String → List String → Except String (String × List String)
  | _, _, [] => .error "TypeError: NoneType is not subscriptable"
  | token, elements, t :: ts =>
    if t = "\n" then joinArray token elements ts
    else if t = "" then .error "IndexError: string index out of range"
    else if t.data.getLast? = some ')' then
      let tk2 := "\"" ++ pyStripChars [')'] t ++ "\")"
      let token' := String.mk (replaceFirstL "=(".data "=(\"".data token.data) ++ "\""
      .ok (token' ++ " " ++ String.intercalate " " elements ++ " " ++ tk2, ts)
    else joinArray token (elements ++ ["\"" ++ pyStrip t ++ "\""]) ts

/-- The `while 1` token loop of `PKGBUILD._parse` (source lines
386-418), fuelled by the number of remaining tokens (each iteration
consumes at least one token, so fuel = stream length always suffices
and the fuel branch is unreachable from `parseTokens`):

* end of stream or an empty token ends the loop;
* a `'\n'` token, or any token while `in_function` is set, is skipped —
  note that this check precedes the `'}'` handler, so once `in_function`
  is set it is never cleared;
* a token containing `=(` but no `)` triggers the array-joining loop;
* an assignment-shaped token updates the symbol table;
* `{` sets `in_function`; the `'}' and in_function` branch is reproduced
  faithfully even though it is unreachable. -/
def parseTokensF : Nat → Bool → SymTable → List String → Except String SymTable
  | _, _, tbl, [] => .ok tbl
  | 0, _, _, _ :: _ => .error "fuel exhausted (unreachable)"
  | fuel + 1, inF, tbl, t :: ts =>
    if t = "" then .ok tbl
    else if t = "\n" ∨ inF then parseTokensF fuel inF tbl ts
    else
      (if hasInfixB "=(".data t.data ∧ ¬t.data.contains ')' then joinArray t [] ts
       else .ok (t, ts)).bind fun p =>
        if matchesAssign p.1 then
          (handleAssign tbl p.1).bind fun tbl' => parseTokensF fuel inF tbl' p.2
        else if p.1 = "\x7b" then parseTokensF fuel true tbl p.2
        else if p.1 = "\x7d" ∧ inF then parseTokensF fuel false tbl p.2
        else parseTokensF fuel inF tbl p.2

/-- The token loop started as `_parse` starts it (`in_function = False`,
fresh symbol table state). -/
def parseTokens (tbl : SymTable) (ts : List String) : Except String SymTable :=
  parseTokensF ts.length false tbl ts

/-- C1.  The claim says suppression ends at the first `}` after a `{`
and later assignments are processed normally.  In the code the
`if token == '\n' or in_function: continue` test precedes the `'}'`
handler, so once `{` is seen every later token — including `}` — is
skipped and suppression never ends.  On the token stream of the recipe
`pkgname=foo\nbuild() { x=1 }\npkgver=1` the symbol table keeps
`pkgname` (assigned before the function) but never sees `pkgver`,
although that assignment follows the closing `}`. -/
theorem c1_function_suppression_never_ends :
    parseTokens [] ["pkgname=foo", "build()", "\x7b", "x=1", "\x7d", "pkgver=1"]
      = .ok [("pkgname", PV.str "foo")] ∧
    alookup "pkgver" [("pkgname", PV.str "foo")] = Option.none := by decide

/-! ### The substitution engine (`_replace_symbol` / `_substitute`) -/

/-- One match attempt of `PKGBUILD._symbol_regex` after a `$`: either
`{word+}` or a bare `word+` (with the braces stripped from the name as
`.strip("{}")` does); returns the name and the rest of the input. -/
def matchName (cs : List Char) : Option (String × List Char) :=
  match cs with
  | '{' :: rest =>
    let w := rest.takeWhile isWordChar
    if w ≠ [] then
      match rest.dropWhile isWordChar with
      | '}' :: r' => some (String.mk w, r')
      | _ => Option.none
    else Option.none
  | _ =>
    let w := cs.takeWhile isWordChar
    if w ≠ [] then some (String.mk w, cs.dropWhile isWordChar) else Option.none

/-- `re.sub` with the symbol regex: scan left to right, replacing each
`$name`/`${name}` via `repl` (which may itself fail to terminate, hence
`Option`); the fuel only bounds the scan length and `cs.length` always
suffices. -/
def scanSub (repl : String → Option String) : Nat → List Char → Option (List Char)
  | _, [] => some []
  | 0, _ :: _ => Option.none
  | fuel + 1, c :: rest =>
    if c = '$' then
      match matchName rest with
      | some (nm, rem) =>
        (repl nm).bind fun r =>
          (scanSub repl fuel rem).map fun tail => r.data ++ tail
      | Option.none => (scanSub repl fuel rest).map fun tail => '$' :: tail
    else (scanSub repl fuel rest).map fun tail => c :: tail

/-- `PKGBUILD._replace_symbol` / the regex substitution, with explicit
recursion fuel: each nesting level of `_replace_symbol` costs one unit,
a missing symbol falls back to `""` exactly as the source does, and
`Option.none` means the recursion did not finish within the fuel.  The
Python function is the limit of this chain as the fuel grows. -/
def substFuel (tbl : SymTable) : Nat → String → Option String
  | 0, _ => Option.none
  | fuel + 1, s =>
    (scanSub (fun nm =>
      match alookup nm tbl with
      | some (.str v) => substFuel tbl fuel v
      | some _ => Option.none
      | Option.none => substFuel tbl fuel "") s.data.length s.data).map String.mk

/-- `_substitute`'s treatment of one value: scalars are substituted
directly, arrays element-wise. -/
def substPV (tbl : SymTable) (fuel : Nat) : PV → Option PV
  | .str s => (substFuel tbl fuel s).map .str
  | .arr xs => (xs.mapM (substFuel tbl fuel)).map .arr
  | _ => Option.none

/-- `PKGBUILD._substitute`: iterate over the symbols in insertion order,
replacing each value by its substitution **in place** (later symbols see
the already-updated table, as the Python loop mutates the dict it reads). -/
def substituteAllF (fuel : Nat) (tbl : SymTable) : Option SymTable :=
  (tbl.map Prod.fst).foldlM (fun t k =>
    match alookup k t with
    | some v => (substPV t fuel v).map (updateAssoc t k)
    | Option.none => Option.none) tbl

/-- The worked example table of the spec:
`{pkgname: "foo", pkgver: "$pkgname-1"}`. -/
def exTable : SymTable := [("pkgname", .str "foo"), ("pkgver", .str "$pkgname-1")]

/-- The self-referential table `{a: "$a"}`. -/
def cycTable : SymTable := [("a", .str "$a")]

theorem scanSub_mono {f g : String → Option String}
    (hfg : ∀ nm r, f nm = some r → g nm = some r) :
    ∀ (fuel : Nat) (cs out : List Char),
      scanSub f fuel cs = some out → scanSub g fuel cs = some out := by
  intro fuel
  induction fuel with
  | zero =>
    intro cs out h
    cases cs with
    | nil => exact h
    | cons c t => exact absurd h (by simp [scanSub])
  | succ n ih =>
    intro cs out h
    cases cs with
    | nil => exact h
    | cons c rest =>
      unfold scanSub at h ⊢
      by_cases hc : c = '$'
      · rw [if_pos hc] at h ⊢
        cases hm : matchName rest with
        | some p =>
          obtain ⟨nm, rem⟩ := p
          simp only [hm] at h ⊢
          cases hf : f nm with
          | none => rw [hf] at h; cases h
          | some r =>
            rw [hf, Option.some_bind] at h
            obtain ⟨tail, htail, hout⟩ := Option.map_eq_some'.mp h
            rw [hfg nm r hf, Option.some_bind, ih rem tail htail]
            rw [← hout]
            rfl
        | none =>
          simp only [hm] at h ⊢
          obtain ⟨tail, htail, hout⟩ := Option.map_eq_some'.mp h
          rw [ih rest tail htail, ← hout]
          rfl
      · rw [if_neg hc] at h ⊢
        obtain ⟨tail, htail, hout⟩ := Option.map_eq_some'.mp h
        rw [ih rest tail htail, ← hout]
        rfl

theorem substFuel_mono (tbl : SymTable) :
    ∀ (n : Nat) (s r : String),
      substFuel tbl n s = some r → substFuel tbl (n + 1) s = some r := by
  intro n
  induction n with
  | zero =>
    intro s r h
    cases h
  | succ n ih =>
    intro s r h
    unfold substFuel at h ⊢
    obtain ⟨out, hout, hmk⟩ := Option.map_eq_some'.mp h
    have hrepl : ∀ nm r', (fun nm => match alookup nm tbl with
        | some (.str v) => substFuel tbl n v
        | some _ => Option.none
        | Option.none => substFuel tbl n "") nm = some r' →
        (fun nm => match alookup nm tbl with
        | some (.str v) => substFuel tbl (n + 1) v
        | some _ => Option.none
        | Option.none => substFuel tbl (n + 1) "") nm = some r' := by
      intro nm r' h'
      cases halk : alookup nm tbl with
      | none =>
        simp only [halk] at h' ⊢
        exact ih _ _ h'
      | some v =>
        cases v <;> simp only [halk] at h' ⊢
        · exact ih _ _ h'
        all_goals cases h'
    rw [scanSub_mono hrepl _ _ _ hout, ← hmk]
    rfl

theorem substFuel_le (tbl : SymTable) {n m : Nat} (hnm : n ≤ m) {s r : String}
    (h : substFuel tbl n s = some r) : substFuel tbl m s = some r := by
  induction hnm with
  | refl => exact h
  | step _ ih => exact substFuel_mono tbl _ _ _ ih

/-- C2.  For the spec's example table, resolving `pkgver`'s value
`"$pkgname-1"` yields `"foo-1"` (the `$pkgname` reference is replaced
by the referenced symbol's value and the result re-expanded), a
reference to the absent name `missing` is replaced by the empty string,
and the in-place `_substitute` pass leaves the table at
`{pkgname: "foo", pkgver: "foo-1"}` — all stable for every recursion
budget of at least two. -/
theorem c2_substitution (n : Nat) (h : 2 ≤ n) :
    substFuel exTable n "$pkgname-1" = some "foo-1" ∧
    substFuel exTable n "${missing}" = some "" ∧
    substituteAllF 2 exTable = some [("pkgname", .str "foo"), ("pkgver", .str "foo-1")] := by
  refine ⟨substFuel_le exTable h (by decide), substFuel_le exTable h (by decide), by decide⟩

/-- C2, witness at the minimal budget. -/
theorem c2_substitution_witness :
    substFuel exTable 2 "$pkgname-1" = some "foo-1" ∧
    substFuel exTable 2 "${missing}" = some "" ∧
    substituteAllF 2 exTable = some [("pkgname", .str "foo"), ("pkgver", .str "foo-1")] :=
  c2_substitution 2 (Nat.le_refl 2)

/-- C3.  The substitution engine has no cycle guard: for the
self-referential table `{a: "$a"}`, resolving `"$a"` fails to finish
within **any** recursion budget — the fuel-indexed chain is `none`
everywhere, which is the shallow-embedding statement that the Python
recursion does not terminate.  (On acyclic tables the chain reaches a
value, as the C2 theorem shows.) -/
theorem c3_self_reference_diverges :
    ∀ n : Nat, substFuel cycTable n "$a" = Option.none := by
  intro n
  induction n with
  | zero => rfl
  | succ n ih =>
    unfold substFuel
    rw [show ("$a" : String).data = ['$', 'a'] from rfl]
    show (scanSub _ 2 ['$', 'a']).map String.mk = Option.none
    unfold scanSub
    rw [if_pos rfl, show matchName ['a'] = some ("a", ([] : List Char)) from rfl]
    show ((match alookup "a" cycTable with
      | some (.str v) => substFuel cycTable n v
      | some _ => Option.none
      | Option.none => substFuel cycTable n "").bind fun r =>
        (scanSub _ 1 []).map fun tail => r.data ++ tail).map String.mk = Option.none
    rw [show alookup "a" cycTable = some (.str "$a") from rfl]
    show ((substFuel cycTable n "$a").bind fun r =>
        (scanSub _ 1 []).map fun tail => r.data ++ tail).map String.mk = Option.none
    rw [ih]
    rfl

/-! ### Basic lemmas about the attribute store -/

theorem setA_eq (st : PState) (k : String) (v : PV) : setA st k v k = some v := by
  simp [setA]

theorem setA_ne (st : PState) (k : String) (v : PV) {g : String} (h : g ≠ k) :
    setA st k v g = st g := by
  simp [setA, h]

theorem except_bind_ok {α β : Type} {x : Except String α} {f : α → Except String β}
    {b : β} (h : x.bind f = .ok b) : ∃ a, x = .ok a ∧ f a = .ok b := by
  cases x with
  | error e => simp [Except.bind] at h
  | ok a => exact ⟨a, rfl, h⟩

/-- `postSize` only ever writes the `size` attribute. -/
theorem postSize_pres {st st' : PState} (h : postSize st = .ok st')
    {g : String} (hg : g ≠ "size") : st' g = st g := by
  unfold postSize at h
  split at h
  · split at h
    · obtain ⟨i, -, hf⟩ := except_bind_ok h
      cases hf
      exact setA_ne _ _ _ hg
    · cases h; rfl
  · cases h

/-- `postForced` only ever writes the `is_forced` attribute. -/
theorem postForced_pres {st st' : PState} (h : postForced st = .ok st')
    {g : String} (hg : g ≠ "is_forced") : st' g = st g := by
  unfold postForced at h
  split at h
  · split at h
    · cases h; exact setA_ne _ _ _ hg
    · cases h; rfl
  · cases h

/-- `postBuilddate` only ever writes the `builddate` attribute. -/
theorem postBuilddate_pres {st st' : PState} (h : postBuilddate st = .ok st')
    {g : String} (hg : g ≠ "builddate") : st' g = st g := by
  unfold postBuilddate at h
  split at h
  · split at h
    · obtain ⟨i, -, hf⟩ := except_bind_ok h
      cases hf
      exact setA_ne _ _ _ hg
    · cases h; rfl
  · cases h

/-- `postVersion` only ever writes the `version` and `release` attributes. -/
theorem postVersion_pres {st st' : PState} (h : postVersion st = .ok st')
    {g : String} (hg1 : g ≠ "version") (hg2 : g ≠ "release") : st' g = st g := by
  unfold postVersion at h
  split at h
  · split at h
    · split at h
      · obtain ⟨i, -, hf⟩ := except_bind_ok h
        cases hf
        rw [setA_ne _ _ _ hg2, setA_ne _ _ _ hg2, setA_ne _ _ _ hg1]
      · cases h
    · cases h; rfl
  · cases h

/-- `postPackager` only ever writes the `packager` attribute. -/
theorem postPackager_pres {st st' : PState} (h : postPackager st = .ok st')
    {g : String} (hg : g ≠ "packager") : st' g = st g := by
  unfold postPackager at h
  split at h
  · split at h
    · cases h; exact setA_ne _ _ _ hg
    · cases h; rfl
  · cases h

/-- C7. The claim says the assigned literal `"Unknown Packager"` collapses
to an absent packager field.  The code compares against the misspelled
literal `'Uknown Packager'` (source line 260), so the correctly spelled
sentinel of the claim is kept verbatim, while only the misspelled string
collapses to `None`.  This theorem evaluates the parser at both inputs. -/
theorem c7_packager_sentinel_misspelled :
    parseField ["packager = Unknown Packager"] "packager"
      = some (some (.str "Unknown Packager")) ∧
    parseField ["packager = Uknown Packager"] "packager"
      = some (some PV.none) := by decide

/-- C8, counterexample.  The claim says that when `force` is never
assigned, `is_forced` stays at its default (the empty string set in
`__init__`).  In fact `'' == False` is false in Python, so the guard
`not self.is_forced == False` passes and the unset field is coerced to
the boolean `False`: parsing an empty stream yields `is_forced = False`,
not the default `''`. -/
theorem c8_counterexample :
    parseField [] "is_forced" = some (some (.bool false)) ∧
    pacmanInitState "is_forced" = some (.str "") ∧
    parseField [] "is_forced" ≠ some (pacmanInitState "is_forced") := by decide

/-- C8, amended.  Whatever string value the line loop leaves in
`is_forced` (the last assigned `force` value, or the `""` default when
`force` was never assigned), the post-processing coerces it to the
boolean `s == "True"`; in particular an unset `force` yields `False`
rather than the untouched default. -/
theorem c8_is_forced_coercion (lines : List String) (st0 st : PState) (s : String)
    (_h1 : processLines pacmanInitState lines = .ok st0)
    (h2 : st0 "is_forced" = some (.str s))
    (h3 : pacmanPost st0 = .ok st) :
    st "is_forced" = some (.bool (s == "True")) := by
  obtain ⟨st4, h4, hp5⟩ := except_bind_ok h3
  obtain ⟨st3, h3a, hp4⟩ := except_bind_ok h4
  obtain ⟨st2, h2a, hp3⟩ := except_bind_ok h3a
  obtain ⟨st1, hp1, hp2⟩ := except_bind_ok h2a
  have e1 : st1 "is_forced" = some (.str s) := by
    rw [postSize_pres hp1 (by decide), h2]
  unfold postForced at hp2
  rw [e1] at hp2
  simp only [pvEqFalse, pvEqStr, Bool.not_false, if_pos] at hp2
  cases hp2
  rw [postPackager_pres hp5 (by decide), postVersion_pres hp4 (by decide) (by decide),
    postBuilddate_pres hp3 (by decide), setA_eq]

/-! ### C5: characterization of the line loop -/

/-- The ten record fields that the repeatable keys of `_arrays` append
into (the images of `arraysP` under `renameP`). -/
def arrayTargets : List String :=
  ["architectures", "licenses", "replaces", "groups", "depends",
   "optdepends", "conflicts", "provides", "backup", "options"]

/-- Classify a line the way the loop does: `none` for skipped
(comment / blank) lines, otherwise the `(key, value)` pair produced by
splitting the stripped line on the last `" = "`. -/
def lineKV (line : String) : Option (String × String) :=
  if line = "" then Option.none
  else if line.data.headD ' ' = '#' ∨ pyStrip line = "" then Option.none
  else some ((rpartitionS " = " (pyStrip line)).1,
    (rpartitionS " = " (pyStrip line)).2.2)

/-- A line is well formed when it is non-empty and, if it is a content
line, its stripped text contains the `" = "` separator and its key does
not route a scalar write into one of the ten repeatable-target fields. -/
def wfLineB (line : String) : Bool :=
  (line ≠ "") &&
  (match lineKV line with
   | Option.none => true
   | some (k, _) =>
     ((rpartitionS " = " (pyStrip line)).2.1 = " = ") &&
     (decide (k ∈ arraysP) || decide (renameP k ∉ arrayTargets)))

/-- Values appended into array-target field `f`, in encounter order. -/
def arrayVals (f : String) (lines : List String) : List String :=
  ((lines.filterMap lineKV).filter
    (fun p => decide (p.1 ∈ arraysP ∧ renameP p.1 = f))).map (·.2)

/-- The last scalar value assigned to field `f`, if any. -/
def lastScalar (f : String) (lines : List String) : Option String :=
  (((lines.filterMap lineKV).filter
    (fun p => decide (p.1 ∉ arraysP ∧ renameP p.1 = f))).map (·.2)).getLast?

theorem string_eq_empty_iff (s : String) : s = "" ↔ s.data = [] :=
  ⟨fun h => h ▸ rfl, fun h => by rw [← string_mk_data s, h]⟩

/-- A skipped (comment or blank) line leaves the state unchanged. -/
theorem processLine_skip {st : PState} {l : String}
    (hne : l ≠ "") (hkv : lineKV l = Option.none) :
    processLine st l = .ok st := by
  unfold processLine
  unfold lineKV at hkv
  rw [if_neg hne] at hkv ⊢
  split at hkv
  · next hcond => rw [if_pos hcond]
  · cases hkv

/-- A content line acts by appending (array keys) or overwriting. -/
theorem processLine_content {st : PState} {l : String} {k v : String}
    (hkv : lineKV l = some (k, v)) :
    processLine st l =
      if k ∈ arraysP then
        match st (renameP k) with
        | some (.arr xs) => .ok (setA st (renameP k) (.arr (xs ++ [v])))
        | some _ => .error "AttributeError: append on non-list"
        | Option.none => .error "AttributeError: missing attribute"
      else .ok (setA st (renameP k) (.str v)) := by
  have hne : l ≠ "" := by
    intro h
    rw [h] at hkv
    cases hkv
  unfold processLine
  unfold lineKV at hkv
  rw [if_neg hne] at hkv ⊢
  split at hkv
  · cases hkv
  · next hcond =>
    rw [if_neg hcond]
    injection hkv with hkv'
    obtain ⟨hk, hv⟩ := Prod.mk.inj hkv'
    rw [hk, hv]

/-- Every key of `_arrays` renames into one of the ten targets. -/
theorem arraysP_rename_mem : ∀ k ∈ arraysP, renameP k ∈ arrayTargets := by decide

theorem cons_getLast? {α : Type} (v : α) (xs : List α) :
    (v :: xs).getLast? = match xs.getLast? with
      | some w => some w
      | Option.none => some v := by
  cases xs with
  | nil => rfl
  | cons a t =>
    rw [List.getLast?_cons_cons]
    cases h : (a :: t).getLast? with
    | some w => rfl
    | none => exact absurd (List.getLast?_eq_none_iff.mp h) (by simp)

theorem except_ok_bind {α β : Type} (a : α) (f : α → Except String β) :
    (Except.ok a >>= f : Except String β) = f a := rfl

theorem arrayVals_cons_skip {l : String} {f : String} {ls : List String}
    (hkv : lineKV l = Option.none) : arrayVals f (l :: ls) = arrayVals f ls := by
  unfold arrayVals
  rw [List.filterMap_cons, hkv]

theorem lastScalar_cons_skip {l : String} {f : String} {ls : List String}
    (hkv : lineKV l = Option.none) : lastScalar f (l :: ls) = lastScalar f ls := by
  unfold lastScalar
  rw [List.filterMap_cons, hkv]

theorem arrayVals_cons_hit {l k v f : String} {ls : List String}
    (hkv : lineKV l = some (k, v)) (h : k ∈ arraysP ∧ renameP k = f) :
    arrayVals f (l :: ls) = v :: arrayVals f ls := by
  unfold arrayVals
  rw [List.filterMap_cons, hkv]
  rw [List.filter_cons, if_pos (decide_eq_true h)]
  rfl

theorem arrayVals_cons_miss {l k v f : String} {ls : List String}
    (hkv : lineKV l = some (k, v)) (h : ¬(k ∈ arraysP ∧ renameP k = f)) :
    arrayVals f (l :: ls) = arrayVals f ls := by
  unfold arrayVals
  rw [List.filterMap_cons, hkv]
  rw [List.filter_cons, if_neg (by simpa using h)]

theorem cons_getLast_getD {α : Type} (v : α) (xs : List α) :
    (v :: xs).getLast? = some (xs.getLast?.getD v) := by
  rw [cons_getLast? v xs]
  cases xs.getLast? <;> rfl

theorem lastScalar_cons_hit {l k v f : String} {ls : List String}
    (hkv : lineKV l = some (k, v)) (h : k ∉ arraysP ∧ renameP k = f) :
    lastScalar f (l :: ls) = some ((lastScalar f ls).getD v) := by
  unfold lastScalar
  rw [List.filterMap_cons, hkv]
  rw [List.filter_cons, if_pos (decide_eq_true h), List.map_cons, cons_getLast_getD]

theorem lastScalar_cons_miss {l k v f : String} {ls : List String}
    (hkv : lineKV l = some (k, v)) (h : ¬(k ∉ arraysP ∧ renameP k = f)) :
    lastScalar f (l :: ls) = lastScalar f ls := by
  unfold lastScalar
  rw [List.filterMap_cons, hkv]
  rw [List.filter_cons, if_neg (by simpa using h)]

theorem wfLine_unpack {l k v : String} (h : wfLineB l = true)
    (hkv : lineKV l = some (k, v)) :
    l ≠ "" ∧ ((rpartitionS " = " (pyStrip l)).2.1 = " = ") ∧
      (k ∈ arraysP ∨ renameP k ∉ arrayTargets) := by
  unfold wfLineB at h
  simp only [hkv] at h
  simpa [Bool.and_eq_true, decide_eq_true_eq] using h

theorem wfLineB_ne {l : String} (h : wfLineB l = true) : l ≠ "" := by
  unfold wfLineB at h
  exact of_decide_eq_true ((Bool.and_eq_true _ _).mp h).1

/-- The heart of C5: over any well-formed stream, the line loop
succeeds, array-target fields accumulate the values of their repeatable
keys in encounter order, and every other field holds the last scalar
value assigned to it (or its starting value when never assigned). -/
theorem processLines_characterization :
    ∀ (lines : List String) (st : PState),
      (∀ l ∈ lines, wfLineB l = true) →
      (∀ f ∈ arrayTargets, ∃ xs, st f = some (.arr xs)) →
      ∃ st', processLines st lines = .ok st' ∧
        (∀ f ∈ arrayTargets, ∀ xs, st f = some (.arr xs) →
          st' f = some (.arr (xs ++ arrayVals f lines))) ∧
        (∀ f, f ∉ arrayTargets →
          (lastScalar f lines = Option.none → st' f = st f) ∧
          (∀ w, lastScalar f lines = some w → st' f = some (.str w))) := by
  intro lines
  induction lines with
  | nil =>
    intro st _ _
    refine ⟨st, rfl, ?_, ?_⟩
    · intro f _ xs hxs
      rw [hxs]
      simp [arrayVals]
    · intro f _
      exact ⟨fun _ => rfl, fun w hw => by simp [lastScalar] at hw⟩
  | cons l ls ih =>
    intro st hwf hinv
    have hwl : wfLineB l = true := hwf l (List.mem_cons_self _ _)
    have hws : ∀ x ∈ ls, wfLineB x = true := fun x hx => hwf x (List.mem_cons_of_mem _ hx)
    have hne : l ≠ "" := wfLineB_ne hwl
    cases hkv : lineKV l with
    | none =>
      obtain ⟨st', hrun', hA, hS⟩ := ih st hws hinv
      refine ⟨st', ?_, ?_, ?_⟩
      · unfold processLines
        rw [List.foldlM_cons, processLine_skip hne hkv, except_ok_bind]
        exact hrun'
      · intro f hf xs hxs
        rw [arrayVals_cons_skip hkv]
        exact hA f hf xs hxs
      · intro f hf
        rw [lastScalar_cons_skip hkv]
        exact hS f hf
    | some kv =>
      obtain ⟨k, v⟩ := kv
      have hstep := @processLine_content st l k v hkv
      by_cases hk : k ∈ arraysP
      · -- repeatable (array) key
        have hft : renameP k ∈ arrayTargets := arraysP_rename_mem k hk
        obtain ⟨xs, hxs⟩ := hinv (renameP k) hft
        rw [if_pos hk, hxs] at hstep
        have hinv2 : ∀ f ∈ arrayTargets, ∃ ys,
            setA st (renameP k) (.arr (xs ++ [v])) f = some (.arr ys) := by
          intro f hf
          by_cases hfk : f = renameP k
          · subst hfk
            exact ⟨xs ++ [v], setA_eq _ _ _⟩
          · obtain ⟨ys, hys⟩ := hinv f hf
            exact ⟨ys, (setA_ne _ _ _ hfk).trans hys⟩
        obtain ⟨st', hrun', hA, hS⟩ := ih _ hws hinv2
        refine ⟨st', ?_, ?_, ?_⟩
        · unfold processLines
          rw [List.foldlM_cons, hstep, except_ok_bind]
          exact hrun'
        · intro f hf ys hys
          by_cases hfk : f = renameP k
          · subst hfk
            have hxy : xs = ys := by
              rw [hxs] at hys
              exact PV.arr.inj (Option.some.inj hys)
            rw [arrayVals_cons_hit hkv ⟨hk, rfl⟩]
            rw [hA (renameP k) hft (xs ++ [v]) (setA_eq _ _ _), ← hxy,
              List.append_assoc]
            rfl
          · have hmiss : ¬(k ∈ arraysP ∧ renameP k = f) := fun h2 => hfk h2.2.symm
            rw [arrayVals_cons_miss hkv hmiss]
            exact hA f hf ys ((setA_ne _ _ _ hfk).trans hys)
        · intro f hf
          have hfk : f ≠ renameP k := fun h => hf (h ▸ hft)
          have hmiss : ¬(k ∉ arraysP ∧ renameP k = f) := fun h2 => h2.1 hk
          rw [lastScalar_cons_miss hkv hmiss]
          obtain ⟨hnone, hsome⟩ := hS f hf
          refine ⟨fun h => ?_, hsome⟩
          rw [hnone h, setA_ne _ _ _ hfk]
      · -- scalar key
        have hnt : renameP k ∉ arrayTargets := by
          rcases (wfLine_unpack hwl hkv).2.2 with h | h
          · exact absurd h hk
          · exact h
        rw [if_neg hk] at hstep
        have hinv2 : ∀ f ∈ arrayTargets, ∃ ys,
            setA st (renameP k) (.str v) f = some (.arr ys) := by
          intro f hf
          have hfk : f ≠ renameP k := fun h => hnt (h ▸ hf)
          obtain ⟨ys, hys⟩ := hinv f hf
          exact ⟨ys, (setA_ne _ _ _ hfk).trans hys⟩
        obtain ⟨st', hrun', hA, hS⟩ := ih _ hws hinv2
        refine ⟨st', ?_, ?_, ?_⟩
        · unfold processLines
          rw [List.foldlM_cons, hstep, except_ok_bind]
          exact hrun'
        · intro f hf ys hys
          have hfk : f ≠ renameP k := fun h => hnt (h ▸ hf)
          have hmiss : ¬(k ∈ arraysP ∧ renameP k = f) := fun h2 => hk h2.1
          rw [arrayVals_cons_miss hkv hmiss]
          exact hA f hf ys ((setA_ne _ _ _ hfk).trans hys)
        · intro f hf
          by_cases hfk : f = renameP k
          · subst hfk
            rw [lastScalar_cons_hit hkv ⟨hk, rfl⟩]
            obtain ⟨hnone, hsome⟩ := hS (renameP k) hf
            constructor
            · intro h
              cases h
            · intro w hw
              injection hw with hw'
              cases hlsc : lastScalar (renameP k) ls with
              | none =>
                rw [hlsc] at hw'
                simp only [Option.getD_none] at hw'
                rw [hnone hlsc, setA_eq, hw']
              | some u =>
                rw [hlsc] at hw'
                simp only [Option.getD_some] at hw'
                rw [hsome u hlsc, hw']
          · have hmiss : ¬(k ∉ arraysP ∧ renameP k = f) := fun h2 => hfk h2.2.symm
            rw [lastScalar_cons_miss hkv hmiss]
            obtain ⟨hnone, hsome⟩ := hS f hf
            exact ⟨fun h => (hnone h).trans (setA_ne _ _ _ hfk), hsome⟩

/-- C5.  For every well-formed flat record stream (each non-blank,
non-comment line contains the `" = "` separator and no scalar key
collides with a repeatable-target field), the line loop succeeds and,
after parsing, each of the ten repeatable-target fields holds exactly
the values of its repeatable keys in encounter order, while every other
field holds the last scalar value assigned to it — keys being split on
the LAST `" = "` occurrence and renamed through `_symbol_map` — or its
documented default when never assigned. -/
theorem c5_flat_reader_fields (lines : List String)
    (hwf : ∀ l ∈ lines, wfLineB l = true) :
    ∃ st', processLines pacmanInitState lines = .ok st' ∧
      (∀ f ∈ arrayTargets, st' f = some (.arr (arrayVals f lines))) ∧
      (∀ f, f ∉ arrayTargets →
        (lastScalar f lines = Option.none → st' f = pacmanInitState f) ∧
        (∀ w, lastScalar f lines = some w → st' f = some (.str w))) := by
  have hinit : ∀ f ∈ arrayTargets, pacmanInitState f = some (.arr []) := by decide
  obtain ⟨st', hrun, hA, hS⟩ := processLines_characterization lines pacmanInitState hwf
    (fun f hf => ⟨[], hinit f hf⟩)
  refine ⟨st', hrun, ?_, hS⟩
  intro f hf
  have h := hA f hf [] (hinit f hf)
  simpa using h

/-- C5, witness: a concrete stream with a renamed scalar key, a comment,
a blank line and a twice-repeated repeatable key is well formed and is
characterized by the theorem. -/
theorem c5_flat_reader_fields_witness :
    (∀ l ∈ ["pkgname = foo", "# comment", " ", "license = A", "license = B"],
      wfLineB l = true) ∧
    ∃ st', processLines pacmanInitState
        ["pkgname = foo", "# comment", " ", "license = A", "license = B"] = .ok st' ∧
      (∀ f ∈ arrayTargets, st' f = some (.arr (arrayVals f
        ["pkgname = foo", "# comment", " ", "license = A", "license = B"]))) ∧
      (∀ f, f ∉ arrayTargets →
        (lastScalar f ["pkgname = foo", "# comment", " ", "license = A", "license = B"]
            = Option.none → st' f = pacmanInitState f) ∧
        (∀ w, lastScalar f ["pkgname = foo", "# comment", " ", "license = A", "license = B"]
            = some w → st' f = some (.str w))) :=
  ⟨by decide, c5_flat_reader_fields _ (by decide)⟩

/-! ### Decimal representation: `natRepr`/`natOfDigits` round-trip -/

/-- The ten decimal digit characters. -/
def decChars : List Char := ['0', '1', '2', '3', '4', '5', '6', '7', '8', '9']

theorem digitChar10_mem (k : Nat) : digitChar10 k ∈ decChars := by
  match k with
  | 0 | 1 | 2 | 3 | 4 | 5 | 6 | 7 | 8 => decide
  | n + 9 => exact (by decide : '9' ∈ decChars)

theorem digitVal_digitChar10 {k : Nat} (h : k < 10) : digitVal (digitChar10 k) = k := by
  interval_cases k <;> decide

theorem natDigits_mem : ∀ (fuel n : Nat) (c : Char), c ∈ natDigits fuel n → c ∈ decChars := by
  intro fuel
  induction fuel with
  | zero => intro n c hc; simp [natDigits] at hc
  | succ f ih =>
    intro n c hc
    unfold natDigits at hc
    split at hc
    · rw [List.mem_singleton] at hc
      exact hc ▸ digitChar10_mem n
    · rw [List.mem_append, List.mem_singleton] at hc
      rcases hc with hc | hc
      · exact ih _ _ hc
      · exact hc ▸ digitChar10_mem _

theorem natDigits_ne_nil (fuel n : Nat) (h : fuel ≠ 0) : natDigits fuel n ≠ [] := by
  cases fuel with
  | zero => exact absurd rfl h
  | succ f =>
    unfold natDigits
    split
    · simp
    · simp

theorem natOfDigits_concat (xs : List Char) (c : Char) :
    natOfDigits (xs ++ [c]) = natOfDigits xs * 10 + digitVal c := by
  unfold natOfDigits
  rw [List.foldl_append]
  rfl

theorem natOfDigits_natDigits : ∀ (fuel n : Nat), n ≤ fuel →
    natOfDigits (natDigits fuel n) = n := by
  intro fuel
  induction fuel with
  | zero =>
    intro n h
    have : n = 0 := Nat.le_zero.mp h
    subst this
    rfl
  | succ f ih =>
    intro n h
    unfold natDigits
    split
    · next hlt =>
      show 0 * 10 + digitVal (digitChar10 n) = n
      rw [Nat.zero_mul, Nat.zero_add]
      exact digitVal_digitChar10 hlt
    · next hge =>
      have h10 : 10 ≤ n := Nat.le_of_not_lt hge
      have hdiv : n / 10 ≤ f := by
        have := Nat.div_lt_self (show 0 < n by omega) (show 1 < 10 by norm_num)
        omega
      rw [natOfDigits_concat, ih _ hdiv,
        digitVal_digitChar10 (Nat.mod_lt _ (by norm_num))]
      omega

theorem natRepr_data (n : Nat) : (natRepr n).data = natDigits (n + 1) n := rfl

theorem natOfDigits_natRepr (n : Nat) : natOfDigits (natRepr n).data = n :=
  natOfDigits_natDigits _ _ (Nat.le_succ n)

theorem natRepr_mem {n : Nat} {c : Char} (hc : c ∈ (natRepr n).data) : c ∈ decChars :=
  natDigits_mem _ _ _ hc

theorem natRepr_data_ne_nil (n : Nat) : (natRepr n).data ≠ [] :=
  natDigits_ne_nil _ _ (Nat.succ_ne_zero n)

theorem decChars_props :
    ∀ c ∈ decChars, Char.isDigit c = true ∧ isPySpace c = false ∧
      c ≠ '-' ∧ c ≠ '+' := by decide

theorem dropWhile_eq_self {p : Char → Bool} :
    ∀ {l : List Char}, (∀ c ∈ l, p c = false) → l.dropWhile p = l := by
  intro l h
  cases l with
  | nil => rfl
  | cons c t =>
    rw [List.dropWhile_cons, h c (List.mem_cons_self c t)]
    simp

theorem trimBy_eq_self {p : Char → Bool} {l : List Char}
    (h : ∀ c ∈ l, p c = false) : trimBy p l = l := by
  unfold trimBy
  rw [dropWhile_eq_self h,
    dropWhile_eq_self (fun c hc => h c (List.mem_reverse.mp hc)),
    List.reverse_reverse]

theorem pyInt_natRepr (n : Nat) : pyInt (natRepr n) = .ok (n : Int) := by
  have htrim : trimBy isPySpace (natRepr n).data = (natRepr n).data :=
    trimBy_eq_self (fun c hc => (decChars_props c (natRepr_mem hc)).2.1)
  cases hd : (natRepr n).data with
  | nil => exact absurd hd (natRepr_data_ne_nil n)
  | cons c t =>
    have hc : c ∈ decChars := natRepr_mem (hd ▸ List.mem_cons_self c t)
    unfold pyInt
    rw [htrim, hd]
    simp only [pyIntCore]
    rw [if_neg (decChars_props c hc).2.2.1, if_neg (decChars_props c hc).2.2.2,
      if_pos]
    · rw [show c :: t = (natRepr n).data from hd.symm, natOfDigits_natRepr]
    · rw [List.all_eq_true]
      intro x hx
      exact (decChars_props x (natRepr_mem (hd ▸ hx))).1

/-! ### `rpartition` on the last occurrence of a separator character -/

theorem filter_range_getLast? (p : Nat → Bool) :
    ∀ (n m : Nat), m < n → p m = true → (∀ k, m < k → k < n → p k = false) →
      ((List.range n).filter p).getLast? = some m := by
  intro n
  induction n with
  | zero => intro m hm; omega
  | succ n ih =>
    intro m hm hpm habove
    rw [List.range_succ, List.filter_append]
    rcases Nat.lt_succ_iff_lt_or_eq.mp hm with h | rfl
    · have hn : List.filter p [n] = [] := by
        simp [List.filter, habove n h (Nat.lt_succ_self n)]
      rw [hn, List.append_nil]
      exact ih m h hpm (fun k hk1 hk2 => habove k hk1 (Nat.lt_succ_of_lt hk2))
    · have hn : List.filter p [m] = [m] := by simp [List.filter, hpm]
      rw [hn]
      exact List.getLast?_concat _

theorem singleton_isPrefixOf_cons (c : Char) (t : List Char) :
    [c].isPrefixOf (c :: t) = true := by
  simp [List.isPrefixOf]

theorem head?_of_singleton_isPrefixOf {c : Char} {l : List Char}
    (h : [c].isPrefixOf l = true) : l.head? = some c := by
  cases l with
  | nil => simp [List.isPrefixOf] at h
  | cons d t =>
    simp [List.isPrefixOf] at h
    subst h
    rfl

/-- Splitting on the last occurrence of a single-character separator:
if the suffix `b` does not contain `c`, the split lands on the shown
occurrence. -/
theorem rpartitionL_last {c : Char} (a b : List Char) (hb : c ∉ b) :
    rpartitionL [c] (a ++ c :: b) = (a, [c], b) := by
  have hget : ((List.range ((a ++ c :: b).length + 1)).filter
      (fun k => [c].isPrefixOf ((a ++ c :: b).drop k))).getLast? = some a.length := by
    apply filter_range_getLast?
    · simp [List.length_append]
      omega
    · rw [List.drop_left]
      exact singleton_isPrefixOf_cons c b
    · intro k hk1 _
      obtain ⟨j, rfl⟩ : ∃ j, k = a.length + (j + 1) := ⟨k - a.length - 1, by omega⟩
      rw [List.drop_append]
      show [c].isPrefixOf (List.drop j b) = false
      by_contra hcon
      have hpre : [c].isPrefixOf (List.drop j b) = true := by
        revert hcon
        cases [c].isPrefixOf (List.drop j b) <;> simp
      have : c ∈ List.drop j b := by
        have hh := head?_of_singleton_isPrefixOf hpre
        cases hdj : List.drop j b with
        | nil => rw [hdj] at hh; cases hh
        | cons x xs =>
          rw [hdj] at hh
          injection hh with hx
          subst hx
          exact List.mem_cons_self _ _
      exact hb (List.drop_subset _ _ this)
  unfold rpartitionL
  rw [hget]
  show (List.take a.length (a ++ c :: b), [c],
      List.drop (a.length + 1) (a ++ c :: b)) = (a, [c], b)
  rw [List.take_left, List.drop_append]
  rfl

/-- `rpartitionS "-"` on a string of the form `v ++ "-" ++ u`, with no
further `-` in `u`, splits at the shown separator. -/
theorem rpartitionS_dash (v u : String) (hu : '-' ∉ u.data) :
    rpartitionS "-" (v ++ "-" ++ u) = (v, "-", u) := by
  unfold rpartitionS
  have hdata : (v ++ "-" ++ u).data = v.data ++ '-' :: u.data := by
    rw [String.data_append, String.data_append, List.append_assoc]
    rfl
  rw [hdata, show ("-" : String).data = ['-'] from rfl,
    rpartitionL_last v.data u.data hu]

/-- When the `version` attribute holds `v ++ "-" ++ natRepr n`, the
`version`/`release` post-processing step splits at the shown `-`
(the last one) and parses the decimal suffix back to `n`. -/
theorem postVersion_split {st : PState} {v : String} {n : Nat}
    (hv : st "version" = some (.str (v ++ "-" ++ natRepr n))) :
    postVersion st = .ok (setA (setA (setA st "version" (.str v))
      "release" (.str (natRepr n))) "release" (.int (n : Int))) := by
  have hne : (v ++ "-" ++ natRepr n) ≠ "" := by
    intro h
    have hd : (v ++ "-" ++ natRepr n).data = [] := by rw [h]
    rw [String.data_append, String.data_append] at hd
    simp at hd
  have hu : '-' ∉ (natRepr n).data := by
    intro hmem
    exact (decChars_props _ (natRepr_mem hmem)).2.2.1 rfl
  have hr := rpartitionS_dash v (natRepr n) hu
  have htr : pvTruthy (.str (v ++ "-" ++ natRepr n)) = true := by
    simp [pvTruthy, hne]
  unfold postVersion
  simp only [hv, htr, if_true]
  rw [hr]
  rw [show ((v, "-", natRepr n).2.2) = natRepr n from rfl,
    show ((v, "-", natRepr n).1) = v from rfl, pyInt_natRepr]
  rfl

/-- C6.  If the line loop leaves `pkgver` (attribute `version`) equal to
`v ++ "-" ++ natRepr n` — i.e. the value ends in a plain (canonical)
integer suffix after its last `-` — then the post-processing stores
`version = v` and `release = n`, and re-serializing `"{version}-{release}"`
reproduces the original `pkgver` string exactly. -/
theorem c6_version_release_roundtrip (lines : List String) (st0 st : PState)
    (v : String) (n : Nat)
    (_h1 : processLines pacmanInitState lines = .ok st0)
    (h2 : st0 "version" = some (.str (v ++ "-" ++ natRepr n)))
    (h3 : pacmanPost st0 = .ok st) :
    st "version" = some (.str v) ∧ st "release" = some (.int (n : Int)) ∧
      v ++ "-" ++ intRepr (n : Int) = v ++ "-" ++ natRepr n := by
  obtain ⟨st4, h4, hp5⟩ := except_bind_ok h3
  obtain ⟨st3, h3a, hp4⟩ := except_bind_ok h4
  obtain ⟨st2, h2a, hp3⟩ := except_bind_ok h3a
  obtain ⟨st1, hp1, hp2⟩ := except_bind_ok h2a
  have e3 : st3 "version" = some (.str (v ++ "-" ++ natRepr n)) := by
    rw [postBuilddate_pres hp3 (by decide), postForced_pres hp2 (by decide),
      postSize_pres hp1 (by decide), h2]
  have hsplit := postVersion_split e3
  rw [hsplit] at hp4
  injection hp4 with hst4
  subst hst4
  refine ⟨?_, ?_, ?_⟩
  · rw [postPackager_pres hp5 (by decide), setA_ne _ _ _ (by decide),
      setA_ne _ _ _ (by decide), setA_eq]
  · rw [postPackager_pres hp5 (by decide), setA_eq]
  · unfold intRepr
    rw [if_neg (by omega : ¬(n : Int) < 0), Int.toNat_natCast]

/-- C6, witness: the stream `pkgver = 1.0-1` satisfies the hypotheses
and round-trips. -/
theorem c6_version_release_roundtrip_witness :
    ∃ st0 st, processLines pacmanInitState ["pkgver = 1.0-1"] = .ok st0 ∧
      st0 "version" = some (.str ("1.0" ++ "-" ++ natRepr 1)) ∧
      pacmanPost st0 = .ok st ∧
      (st "version" = some (.str "1.0") ∧
       st "release" = some (.int ((1 : Nat) : Int)) ∧
       "1.0" ++ "-" ++ intRepr ((1 : Nat) : Int) = "1.0" ++ "-" ++ natRepr 1) :=
  ⟨setA pacmanInitState "version" (.str "1.0-1"),
   setA (setA (setA (setA (setA pacmanInitState "version" (.str "1.0-1"))
     "is_forced" (.bool false)) "version" (.str "1.0")) "release" (.str "1"))
     "release" (.int 1),
   rfl, by decide, rfl,
   c6_version_release_roundtrip ["pkgver = 1.0-1"]
     (setA pacmanInitState "version" (.str "1.0-1"))
     (setA (setA (setA (setA (setA pacmanInitState "version" (.str "1.0-1"))
       "is_forced" (.bool false)) "version" (.str "1.0")) "release" (.str "1"))
       "release" (.int 1))
     "1.0" 1 rfl (by decide) rfl⟩

/-- C8, witness: a stream assigning `force = True` satisfies the
hypotheses and yields `is_forced = True`. -/
theorem c8_is_forced_coercion_witness :
    ∃ st0 st, processLines pacmanInitState ["force = True"] = .ok st0 ∧
      st0 "is_forced" = some (.str "True") ∧
      pacmanPost st0 = .ok st ∧
      st "is_forced" = some (.bool true) :=
  ⟨setA pacmanInitState "is_forced" (.str "True"),
   setA (setA pacmanInitState "is_forced" (.str "True")) "is_forced" (.bool true),
   rfl, setA_eq _ _ _, rfl,
   c8_is_forced_coercion ["force = True"]
     (setA pacmanInitState "is_forced" (.str "True"))
     (setA (setA pacmanInitState "is_forced" (.str "True")) "is_forced" (.bool true))
     "True" rfl (setA_eq _ _ _) rfl⟩

/-! ### The recipe mapper (`PKGBUILD._assign_local`) -/

/-- Replace every occurrence of a (non-empty) `pat` by `rep`, scanning
left to right; Python `s.replace(pat, rep)`.  Fuelled by the input
length, which always suffices. -/
def replaceAllF (pat rep : List Char) : Nat → List Char → List Char
  | _, [] => []
  | 0, cs => cs
  | fuel + 1, c :: t =>
    if pat.isPrefixOf (c :: t) ∧ pat ≠ [] then
      rep ++ replaceAllF pat rep fuel ((c :: t).drop pat.length)
    else c :: replaceAllF pat rep fuel t

/-- `var.replace('sums', '')` (source line 468). -/
def stripSums (var : String) : String :=
  ⟨replaceAllF "sums".data [] var.data.length var.data⟩

/-- `PKGBUILD._var_map`. -/
def varMapB : List (String × String) :=
  [("pkgname", "name"), ("pkgver", "version"), ("pkgdesc", "description"),
   ("pkgrel", "release"), ("source", "sources"), ("arch", "architectures"),
   ("license", "licenses")]

/-- `PKGBUILD._checksum_fields`. -/
def checksumFields : List String :=
  ["md5sums", "sha1sums", "sha256sums", "sha384sums", "sha512sums"]

/-- `var = self._var_map[var] if var in self._var_map else var`. -/
def renameB (var : String) : String := (alookup var varMapB).getD var

/-- The five checksum-algorithm names. -/
def algoNames : List String := ["md5", "sha1", "sha256", "sha384", "sha512"]

/-- A `PKGBUILD` object: its ordinary attributes, and the separate
`checksums` dictionary. -/
structure PBRecord where
  attrs : PState
  checksums : PState

/-- The attributes set by `Package.__init__` and `PKGBUILD.__init__`
before parsing. -/
def pkgbuildAttrsInit : List (String × PV) :=
  [("name", .str ""), ("version", .str ""), ("release", .str ""),
   ("description", .str ""), ("url", .str ""), ("licenses", .arr []),
   ("groups", .arr []), ("provides", .arr []), ("depends", .arr []),
   ("optdepends", .arr []), ("conflicts", .arr []), ("replaces", .arr []),
   ("architectures", .arr []), ("options", .arr []), ("backup", .arr []),
   ("install", .str ""), ("noextract", .arr []), ("sources", .arr []),
   ("makedepends", .arr [])]

/-- The freshly initialized `PKGBUILD` record: the `checksums` dict is
created with exactly the five algorithm keys, each at `[]`. -/
def pkgbuildInit : PBRecord :=
  { attrs := fun k => alookup k pkgbuildAttrsInit,
    checksums := fun k => alookup k
      [("md5", .arr []), ("sha1", .arr []), ("sha256", .arr []),
       ("sha384", .arr []), ("sha512", .arr [])] }

/-- One iteration of the `for var in self._symbols` loop of
`_assign_local`: checksum fields are routed into the `checksums` dict
under the suffix-stripped key; anything else is `setattr`'d under its
(possibly renamed) name. -/
def assignLocalStep (rec : PBRecord) (e : String × PV) : PBRecord :=
  if e.1 ∈ checksumFields then
    { rec with checksums := setA rec.checksums (stripSums e.1) e.2 }
  else
    { rec with attrs := setA rec.attrs (renameB e.1) e.2 }

/-- `PKGBUILD._assign_local`: fold the symbol table (in insertion
order) into the record. -/
def assignLocal (tbl : SymTable) (rec : PBRecord) : PBRecord :=
  tbl.foldl assignLocalStep rec

/-- Checksum-routed values for key `k`, in iteration order. -/
def csVals (k : String) (tbl : SymTable) : List PV :=
  (tbl.filter fun e => decide (e.1 ∈ checksumFields ∧ stripSums e.1 = k)).map (·.2)

/-- Attribute-routed values for field `f`, in iteration order. -/
def avVals (f : String) (tbl : SymTable) : List PV :=
  (tbl.filter fun e => decide (e.1 ∉ checksumFields ∧ renameB e.1 = f)).map (·.2)

theorem assignLocal_checksums (tbl : SymTable) :
    ∀ (rec : PBRecord) (k : String),
      (csVals k tbl = [] → (assignLocal tbl rec).checksums k = rec.checksums k) ∧
      (∀ v, (csVals k tbl).getLast? = some v →
        (assignLocal tbl rec).checksums k = some v) := by
  induction tbl with
  | nil =>
    intro rec k
    exact ⟨fun _ => rfl, fun v hv => by simp [csVals] at hv⟩
  | cons e t ih =>
    intro rec k
    have hfold : assignLocal (e :: t) rec = assignLocal t (assignLocalStep rec e) := rfl
    by_cases hp : e.1 ∈ checksumFields ∧ stripSums e.1 = k
    · have hcs : csVals k (e :: t) = e.2 :: csVals k t := by
        unfold csVals
        rw [List.filter_cons, if_pos (decide_eq_true hp)]
        rfl
      have hstep : (assignLocalStep rec e).checksums k = some e.2 := by
        unfold assignLocalStep
        rw [if_pos hp.1]
        show setA rec.checksums (stripSums e.1) e.2 k = some e.2
        rw [← hp.2]
        exact setA_eq _ _ _
      constructor
      · intro h
        rw [hcs] at h
        cases h
      · intro v hv
        rw [hcs, cons_getLast_getD] at hv
        injection hv with hv'
        rw [hfold]
        cases hlast : (csVals k t).getLast? with
        | none =>
          rw [hlast, Option.getD_none] at hv'
          rw [(ih (assignLocalStep rec e) k).1 (List.getLast?_eq_none_iff.mp hlast),
            hstep, hv']
        | some u =>
          rw [hlast, Option.getD_some] at hv'
          rw [(ih (assignLocalStep rec e) k).2 u hlast, hv']
    · have hcs : csVals k (e :: t) = csVals k t := by
        unfold csVals
        rw [List.filter_cons, if_neg (by simpa using hp)]
      have hstep : (assignLocalStep rec e).checksums k = rec.checksums k := by
        unfold assignLocalStep
        split
        · next hin =>
          show setA rec.checksums (stripSums e.1) e.2 k = rec.checksums k
          have hne : k ≠ stripSums e.1 := fun h => hp ⟨hin, h.symm⟩
          exact setA_ne _ _ _ hne
        · rfl
      constructor
      · intro h
        rw [hfold, (ih (assignLocalStep rec e) k).1 (hcs ▸ h), hstep]
      · intro v hv
        rw [hcs] at hv
        rw [hfold]
        exact (ih (assignLocalStep rec e) k).2 v hv

theorem assignLocal_attrs (tbl : SymTable) :
    ∀ (rec : PBRecord) (f : String),
      (avVals f tbl = [] → (assignLocal tbl rec).attrs f = rec.attrs f) ∧
      (∀ v, (avVals f tbl).getLast? = some v →
        (assignLocal tbl rec).attrs f = some v) := by
  induction tbl with
  | nil =>
    intro rec f
    exact ⟨fun _ => rfl, fun v hv => by simp [avVals] at hv⟩
  | cons e t ih =>
    intro rec f
    have hfold : assignLocal (e :: t) rec = assignLocal t (assignLocalStep rec e) := rfl
    by_cases hp : e.1 ∉ checksumFields ∧ renameB e.1 = f
    · have hcs : avVals f (e :: t) = e.2 :: avVals f t := by
        unfold avVals
        rw [List.filter_cons, if_pos (decide_eq_true hp)]
        rfl
      have hstep : (assignLocalStep rec e).attrs f = some e.2 := by
        unfold assignLocalStep
        rw [if_neg hp.1]
        show setA rec.attrs (renameB e.1) e.2 f = some e.2
        rw [← hp.2]
        exact setA_eq _ _ _
      constructor
      · intro h
        rw [hcs] at h
        cases h
      · intro v hv
        rw [hcs, cons_getLast_getD] at hv
        injection hv with hv'
        rw [hfold]
        cases hlast : (avVals f t).getLast? with
        | none =>
          rw [hlast, Option.getD_none] at hv'
          rw [(ih (assignLocalStep rec e) f).1 (List.getLast?_eq_none_iff.mp hlast),
            hstep, hv']
        | some u =>
          rw [hlast, Option.getD_some] at hv'
          rw [(ih (assignLocalStep rec e) f).2 u hlast, hv']
    · have hcs : avVals f (e :: t) = avVals f t := by
        unfold avVals
        rw [List.filter_cons, if_neg (by simpa using hp)]
      have hstep : (assignLocalStep rec e).attrs f = rec.attrs f := by
        unfold assignLocalStep
        split
        · rfl
        · next hin =>
          show setA rec.attrs (renameB e.1) e.2 f = rec.attrs f
          have hne : f ≠ renameB e.1 := fun h => hp ⟨hin, h.symm⟩
          exact setA_ne _ _ _ hne
      constructor
      · intro h
        rw [hfold, (ih (assignLocalStep rec e) f).1 (hcs ▸ h), hstep]
      · intro v hv
        rw [hcs] at hv
        rw [hfold]
        exact (ih (assignLocalStep rec e) f).2 v hv


theorem alookup_mem {β : Type} {k : String} {v : β} :
    ∀ {l : List (String × β)}, alookup k l = some v → (k, v) ∈ l := by
  intro l
  induction l with
  | nil => intro h; cases h
  | cons e t ih =>
    intro h
    obtain ⟨k', v'⟩ := e
    unfold alookup at h
    split at h
    · next heq =>
      injection h with h'
      subst heq h'
      exact List.mem_cons_self _ _
    · exact List.mem_cons_of_mem _ (ih h)

theorem alookup_isSome_iff {β : Type} (k : String) :
    ∀ (l : List (String × β)), (alookup k l).isSome = true ↔ k ∈ l.map Prod.fst := by
  intro l
  induction l with
  | nil => simp [alookup]
  | cons e t ih =>
    obtain ⟨k', v'⟩ := e
    unfold alookup
    by_cases heq : k' = k
    · subst heq
      simp
    · rw [if_neg heq]
      simp only [List.map_cons, List.mem_cons]
      rw [ih]
      constructor
      · exact Or.inr
      · rintro (h | h)
        · exact absurd h.symm heq
        · exact h

theorem filter_keys_nil {tbl : SymTable} {k : String}
    (h : k ∉ tbl.map Prod.fst) :
    tbl.filter (fun e => decide (e.1 = k)) = [] := by
  rw [List.filter_eq_nil_iff]
  intro e he hpred
  exact h (List.mem_map.mpr ⟨e, he, of_decide_eq_true hpred⟩)

theorem nodup_lookup_filter :
    ∀ (tbl : SymTable) (k : String) (v : PV),
      (tbl.map Prod.fst).Nodup → alookup k tbl = some v →
      tbl.filter (fun e => decide (e.1 = k)) = [(k, v)] := by
  intro tbl
  induction tbl with
  | nil => intro k v _ h; cases h
  | cons e t ih =>
    intro k v hnd hl
    obtain ⟨k', v'⟩ := e
    rw [List.map_cons, List.nodup_cons] at hnd
    unfold alookup at hl
    rw [List.filter_cons]
    split at hl
    · next heq =>
      injection hl with hl'
      subst heq hl'
      rw [if_pos (by simp), filter_keys_nil hnd.1]
    · next heq =>
      rw [if_neg (by simpa using heq)]
      exact ih k v hnd.2 hl

theorem renameB_eq_of_not_image {x A : String}
    (himg : ∀ p ∈ varMapB, p.2 ≠ A) (h : renameB x = A) : x = A := by
  unfold renameB at h
  cases halk : alookup x varMapB with
  | none => rw [halk] at h; exact h
  | some w =>
    rw [halk] at h
    exact absurd h (himg (x, w) (alookup_mem halk))

/-- C4.  Each of the five reserved `*sums` variables is routed into the
`checksums` dictionary under the algorithm name with the `sums` suffix
stripped (`var.replace('sums', '')`), and never becomes a top-level
record attribute: after mapping any symbol table with unique keys that
binds `algo ++ "sums"` to `v`, `checksums[algo] = v` and the record has
no attribute named `algo ++ "sums"`. -/
theorem c4_checksum_routing (tbl : SymTable) (algo : String) (v : PV)
    (hnd : (tbl.map Prod.fst).Nodup)
    (ha : algo ∈ algoNames)
    (hl : alookup (algo ++ "sums") tbl = some v) :
    (assignLocal tbl pkgbuildInit).checksums algo = some v ∧
    (assignLocal tbl pkgbuildInit).attrs (algo ++ "sums") = Option.none := by
  have h1 : ∀ x ∈ checksumFields, (stripSums x = algo ↔ x = algo ++ "sums") := by
    have hh : ∀ kk ∈ algoNames, ∀ x ∈ checksumFields,
        (stripSums x = kk ↔ x = kk ++ "sums") := by decide
    exact hh algo ha
  have h2 : algo ++ "sums" ∈ checksumFields := by
    have hh : ∀ kk ∈ algoNames, kk ++ "sums" ∈ checksumFields := by decide
    exact hh algo ha
  have hiff : ∀ x : String,
      (x ∈ checksumFields ∧ stripSums x = algo) ↔ x = algo ++ "sums" := by
    intro x
    constructor
    · rintro ⟨hx, hs⟩
      exact (h1 x hx).mp hs
    · intro h
      subst h
      exact ⟨h2, (h1 _ h2).mpr rfl⟩
  constructor
  · have hfeq : (tbl.filter fun e => decide (e.1 ∈ checksumFields ∧ stripSums e.1 = algo))
        = tbl.filter fun e => decide (e.1 = algo ++ "sums") :=
      List.filter_congr (fun e _ => decide_eq_decide.mpr (hiff e.1))
    have hfil := nodup_lookup_filter tbl (algo ++ "sums") v hnd hl
    have hcs : csVals algo tbl = [v] := by
      unfold csVals
      rw [hfeq, hfil]
      rfl
    exact (assignLocal_checksums tbl pkgbuildInit algo).2 v (by rw [hcs]; rfl)
  · have himg : ∀ p ∈ varMapB, p.2 ≠ algo ++ "sums" := by
      have hh : ∀ kk ∈ algoNames, ∀ p ∈ varMapB, p.2 ≠ kk ++ "sums" := by decide
      exact hh algo ha
    have hav : avVals (algo ++ "sums") tbl = [] := by
      unfold avVals
      rw [List.map_eq_nil_iff, List.filter_eq_nil_iff]
      intro e _ hpred
      obtain ⟨hni, hrn⟩ := of_decide_eq_true hpred
      exact hni (renameB_eq_of_not_image himg hrn ▸ h2)
    rw [(assignLocal_attrs tbl pkgbuildInit (algo ++ "sums")).1 hav]
    have hh : ∀ kk ∈ algoNames, pkgbuildInit.attrs (kk ++ "sums") = Option.none := by decide
    exact hh algo ha

/-- C4, witness: `sha256sums=(abc def)` routes into
`checksums["sha256"]` and leaves no `sha256sums` attribute. -/
theorem c4_checksum_routing_witness :
    (assignLocal [("sha256sums", PV.arr ["abc", "def"])] pkgbuildInit).checksums "sha256"
        = some (.arr ["abc", "def"]) ∧
    (assignLocal [("sha256sums", PV.arr ["abc", "def"])] pkgbuildInit).attrs "sha256sums"
        = Option.none :=
  c4_checksum_routing [("sha256sums", PV.arr ["abc", "def"])] "sha256"
    (PV.arr ["abc", "def"]) (by decide) (by decide) (by decide)

/-- C10.  The `checksums` mapping always has exactly the five algorithm
keys: a key is present after mapping iff it is one of
`md5, sha1, sha256, sha384, sha512` (so no parse removes or adds a
key), and an algorithm whose `*sums` variable was never assigned stays
bound to the empty list it was initialized with. -/
theorem c10_checksums_domain (tbl : SymTable) (k : String)
    (hk : k ∈ algoNames)
    (hnone : alookup (k ++ "sums") tbl = Option.none) :
    (assignLocal tbl pkgbuildInit).checksums k = some (.arr []) ∧
    (∀ g, ((assignLocal tbl pkgbuildInit).checksums g).isSome = true ↔ g ∈ algoNames) := by
  have hmapfst : List.map Prod.fst
      [("md5", PV.arr []), ("sha1", PV.arr []), ("sha256", PV.arr []),
       ("sha384", PV.arr []), ("sha512", PV.arr [])] = algoNames := by decide
  constructor
  · have h1 : ∀ x ∈ checksumFields, (stripSums x = k ↔ x = k ++ "sums") := by
      have hh : ∀ kk ∈ algoNames, ∀ x ∈ checksumFields,
          (stripSums x = kk ↔ x = kk ++ "sums") := by decide
      exact hh k hk
    have hcs : csVals k tbl = [] := by
      unfold csVals
      rw [List.map_eq_nil_iff, List.filter_eq_nil_iff]
      intro e he hpred
      obtain ⟨hin, hs⟩ := of_decide_eq_true hpred
      have hek : e.1 = k ++ "sums" := (h1 e.1 hin).mp hs
      have hsome : (alookup (k ++ "sums") tbl).isSome = true :=
        (alookup_isSome_iff _ tbl).mpr (List.mem_map.mpr ⟨e, he, hek⟩)
      rw [hnone] at hsome
      cases hsome
    rw [(assignLocal_checksums tbl pkgbuildInit k).1 hcs]
    have hh : ∀ kk ∈ algoNames, pkgbuildInit.checksums kk = some (.arr []) := by decide
    exact hh k hk
  · intro g
    cases hcs : (csVals g tbl).getLast? with
    | none =>
      rw [(assignLocal_checksums tbl pkgbuildInit g).1
        (List.getLast?_eq_none_iff.mp hcs)]
      show (alookup g _).isSome = true ↔ g ∈ algoNames
      rw [alookup_isSome_iff, hmapfst]
    | some v =>
      rw [(assignLocal_checksums tbl pkgbuildInit g).2 v hcs]
      simp only [Option.isSome_some, true_iff]
      have hne : csVals g tbl ≠ [] := by
        intro h
        rw [h] at hcs
        cases hcs
      obtain ⟨e, he, hpred⟩ : ∃ e ∈ tbl,
          (decide (e.1 ∈ checksumFields ∧ stripSums e.1 = g)) = true := by
        by_contra hcon
        push_neg at hcon
        apply hne
        unfold csVals
        rw [List.map_eq_nil_iff, List.filter_eq_nil_iff]
        intro e2 he2 hp
        exact absurd hp (by simpa using hcon e2 he2)
      obtain ⟨hin, hstrip⟩ := of_decide_eq_true hpred
      rw [← hstrip]
      have hh : ∀ x ∈ checksumFields, stripSums x ∈ algoNames := by decide
      exact hh e.1 hin

/-- C10, witness: with only `md5sums` assigned, `sha1` is still bound
to `[]` and the key set is exactly the five algorithms. -/
theorem c10_checksums_domain_witness :
    (assignLocal [("md5sums", PV.arr ["x"])] pkgbuildInit).checksums "sha1"
        = some (.arr []) ∧
    (∀ g, ((assignLocal [("md5sums", PV.arr ["x"])] pkgbuildInit).checksums g).isSome = true
      ↔ g ∈ algoNames) :=
  c10_checksums_domain [("md5sums", PV.arr ["x"])] "sha1" (by decide) (by decide)


/-! ### C9: stream ownership in the constructors -/

/-- Observable resource events of a constructor run
(`PacmanPackage.__init__` lines 220-230, `PKGBUILD.__init__` lines
362-370): the parser opens its own stream, closes the stream it holds,
or an exception propagates out of the constructor. -/
inductive IEv where
  | opened
  | closed
  | raised
deriving DecidableEq, Repr

/-- Control flow of `PKGBUILD.__init__`: raise `ValueError` when
neither a name nor a stream is given; open the file when no stream was
supplied (`should_close = True`); run `_parse`, whose failure
propagates immediately; close only afterwards, and only when
`should_close`. -/
def pkgbuildInitTrace (nameGiven fileGiven parseOk : Bool) : List IEv :=
  if ¬nameGiven ∧ ¬fileGiven then [.raised]
  else
    let opens : List IEv := if fileGiven then [] else [.opened]
    if parseOk then opens ++ (if fileGiven then [] else [.closed])
    else opens ++ [.raised]

/-- Control flow of `PacmanPackage.__init__`: as above, with the
`.PKGINFO` extraction (whose failure also propagates before any close)
between opening and parsing. -/
def pacmanInitTrace (nameGiven tarGiven extractOk parseOk : Bool) : List IEv :=
  if ¬nameGiven ∧ ¬tarGiven then [.raised]
  else
    let opens : List IEv := if tarGiven then [] else [.opened]
    if ¬extractOk then opens ++ [.raised]
    else if ¬parseOk then opens ++ [.raised]
    else opens ++ (if tarGiven then [] else [.closed])

/-- C9, counterexample.  The claim says a self-opened stream is closed
on every exit path, including when the parse raises.  Neither
constructor wraps the parse in `try/finally`: when `_parse` raises, the
`close` at the end of `__init__` is never reached, so the self-opened
stream leaks.  Shown here on both parsers at a concrete failing run. -/
theorem c9_counterexample :
    pkgbuildInitTrace true false false = [.opened, .raised] ∧
    IEv.closed ∉ pkgbuildInitTrace true false false ∧
    pacmanInitTrace true false true false = [.opened, .raised] ∧
    IEv.closed ∉ pacmanInitTrace true false true false := by decide

/-- C9, amended.  For both parsers: a caller-supplied stream is never
closed; a self-opened stream is closed exactly when the body (member
extraction and parse) succeeds — on an error path the self-opened
stream is **not** closed before the exception propagates. -/
theorem c9_stream_ownership (ng fg po eo : Bool) :
    (fg = true → IEv.closed ∉ pkgbuildInitTrace ng fg po) ∧
    (fg = false → ng = true →
      (IEv.closed ∈ pkgbuildInitTrace ng fg po ↔ po = true)) ∧
    (fg = true → IEv.closed ∉ pacmanInitTrace ng fg eo po) ∧
    (fg = false → ng = true →
      (IEv.closed ∈ pacmanInitTrace ng fg eo po ↔ (eo = true ∧ po = true))) := by
  cases ng <;> cases fg <;> cases po <;> cases eo <;> decide

/-- C9, witness: successful self-opened runs do close the stream, and
caller-supplied runs never do. -/
theorem c9_stream_ownership_witness :
    IEv.closed ∉ pkgbuildInitTrace true true true ∧
    (IEv.closed ∈ pkgbuildInitTrace true false true ↔ true = true) ∧
    (IEv.closed ∈ pacmanInitTrace true false true true ↔ (true = true ∧ true = true)) :=
  ⟨(c9_stream_ownership true true true true).1 rfl,
   (c9_stream_ownership true false true true).2.1 rfl rfl,
   (c9_stream_ownership true false true true).2.2.2 rfl rfl⟩

end Parched
